import Mathlib

/-!
# zonk: the native-extension header and the demonstration extension `bfputs`

A shallow embedding of `src/ffi/zonk.h` (the token kinds and the token record)
and of `src/examples/ffi/clib.c` (the function `bfputs`), followed by theorems
about them.

Conventions of the embedding.

* `ZonkIndex` is `unsigned long`; its values are the naturals below `2 ^ 64`
  and `++`, `-` on it are taken modulo `2 ^ 64` (`wrap`, `usub`).
* `char *mem` is a pointer, so the memory it addresses is a function from
  indices to cell values; the tape is its first `size` cells.  A load at an
  index `>= size` is outside the tape: it has no value, and the run stops
  there (`Exec.fault`).  Every load is recorded in `State.reads`.
* The buffer returned by `malloc` is a list of `str_size` cells with
  unspecified contents (`junk`); whether `malloc` succeeds is an input.
* Standard output is the list of bytes written so far.
* Loops take a fuel argument and end in `Exec.noFuel` only when an iteration
  is due and no fuel is left.
-/

namespace Zonk

/-! ## `src/ffi/zonk.h` -/

/-- The enumeration `ZonkTokenType`, enumerators in declaration order. -/
inductive ZonkTokenType where
  | ZONK_INC
  | ZONK_DEC
  | ZONK_LEFT
  | ZONK_RIGHT
  | ZONK_LOOP_OPEN
  | ZONK_LOOP_CLOSE
  | ZONK_PUTC
  | ZONK_GETC
  | ZONK_COPY
  | ZONK_JUMP_FORWARD
  | ZONK_JUMP_BACK
  | ZONK_STRING
  | ZONK_IMPORT
  | ZONK_MODULE_SWITCH
  | ZONK_FUNC_CALL
  deriving DecidableEq

/-- The enumerator list of the `enum` declaration, as written in the header. -/
def enumerators : List ZonkTokenType :=
  [.ZONK_INC, .ZONK_DEC, .ZONK_LEFT, .ZONK_RIGHT, .ZONK_LOOP_OPEN, .ZONK_LOOP_CLOSE,
   .ZONK_PUTC, .ZONK_GETC, .ZONK_COPY, .ZONK_JUMP_FORWARD, .ZONK_JUMP_BACK,
   .ZONK_STRING, .ZONK_IMPORT, .ZONK_MODULE_SWITCH, .ZONK_FUNC_CALL]

/-- Integer value of an enumerator.  No enumerator of the header has an
explicit value, so by the C rule the first is `0` and each later one is its
predecessor plus one: the value is the position in the declaration. -/
def ZonkTokenType.encode (k : ZonkTokenType) : Nat :=
  enumerators.indexOf k

/-- The record `ZonkToken`: fields `kind` and `lit`, in that order. -/
structure ZonkToken where
  kind : ZonkTokenType
  lit : String
  deriving DecidableEq

/-- The kinds of token of the specification's data model, in its order. -/
def specKinds : List String :=
  ["increment", "decrement", "move-left", "move-right", "loop-open",
   "loop-close", "output", "input", "copy", "jump-forward", "jump-back",
   "string-literal", "import", "module-switch", "function-call"]

/-- The specification's word for each enumerator of the header. -/
def ZonkTokenType.describe : ZonkTokenType → String
  | .ZONK_INC => "increment"
  | .ZONK_DEC => "decrement"
  | .ZONK_LEFT => "move-left"
  | .ZONK_RIGHT => "move-right"
  | .ZONK_LOOP_OPEN => "loop-open"
  | .ZONK_LOOP_CLOSE => "loop-close"
  | .ZONK_PUTC => "output"
  | .ZONK_GETC => "input"
  | .ZONK_COPY => "copy"
  | .ZONK_JUMP_FORWARD => "jump-forward"
  | .ZONK_JUMP_BACK => "jump-back"
  | .ZONK_STRING => "string-literal"
  | .ZONK_IMPORT => "import"
  | .ZONK_MODULE_SWITCH => "module-switch"
  | .ZONK_FUNC_CALL => "function-call"

/-! ## `ZonkIndex` arithmetic -/

/-- Number of values of `ZonkIndex` (`unsigned long`, 64 bits). -/
def indexMod : Nat := 18446744073709551616

/-- Size in bytes of a `ZonkIndex` object.  The object behind `ptr` and the
tape are distinct objects of one address space of `2 ^ 64` bytes, so a call
can only receive a tape with `size + indexBytes <= 2 ^ 64`. -/
def indexBytes : Nat := 8

/-- Reduction of a natural to a `ZonkIndex` value. -/
def wrap (n : Nat) : Nat := n % indexMod

/-- Unsigned subtraction `a - b` on `ZonkIndex`. -/
def usub (a b : Nat) : Nat := (a + (indexMod - b % indexMod)) % indexMod

/-! ## `src/examples/ffi/clib.c` -/

/-- Everything `bfputs` can read or write: the memory behind `mem`, the cell
`*ptr`, the local `str_size`, standard output, and four ghost fields: the
indices at which `mem` was loaded, in order, the indices of the stores through
`str` that fell outside its allocation, and the number of iterations of each
loop.  The buffer behind `str` is a separate object, passed alongside. -/
structure State where
  mem : Nat → Nat
  ptr : Nat
  strSize : Nat
  out : List Nat
  reads : List Nat
  stray : List Nat
  scanIters : Nat
  copyIters : Nat

/-- State on entry to `bfputs`, after `ZonkIndex str_size = 1;`. -/
def State.init (mem : Nat → Nat) (ptr : Nat) : State :=
  { mem := mem, ptr := ptr, strSize := 1, out := [],
    reads := [], stray := [], scanIters := 0, copyIters := 0 }

/-- How a run ends: at its end, with a result; stopped at a load outside the
tape, in the state reached there; or with the fuel exhausted. -/
inductive Exec (α : Type) where
  | done (a : α)
  | fault (st : State)
  | noFuel

/-- A load `mem[i]` from a tape of `size` cells.  The load is recorded; it has
a value only when `i < size`. -/
def State.load (st : State) (size i : Nat) : Option Nat × State :=
  (if i < size then some (st.mem i) else none, { st with reads := st.reads ++ [i] })

/-- The loop `for (ZonkIndex i = *ptr; i < size && mem[i] != 0; i++) str_size++;`
from the point where `i` has the given value.  `&&` evaluates `mem[i]` only
when `i < size`. -/
def scanLoop (size : Nat) : Nat → Nat → State → Exec State
  | 0, i, st =>
    if i < size then
      match st.load size i with
      | (none, st1) => .fault st1
      | (some c, st1) => if c ≠ 0 then .noFuel else .done st1
    else .done st
  | fuel + 1, i, st =>
    if i < size then
      match st.load size i with
      | (none, st1) => .fault st1
      | (some c, st1) =>
        if c ≠ 0 then
          scanLoop size fuel (wrap (i + 1))
            { st1 with strSize := wrap (st1.strSize + 1), scanIters := st1.scanIters + 1 }
        else .done st1
    else .done st

/-- A store `str[k] = c` into the buffer `buf`.  A store outside the
allocation leaves the buffer as it is and is recorded in `State.stray`. -/
def State.store (st : State) (buf : List Nat) (k c : Nat) : List Nat × State :=
  if k < buf.length then (buf.set k c, st)
  else (buf, { st with stray := st.stray ++ [k] })

/-- The call `malloc(n)`: `NULL` on failure, else `n` cells of unspecified contents. -/
def malloc (allocOk : Bool) (junk : Nat → Nat) (n : Nat) : Option (List Nat) :=
  if allocOk then some ((List.range n).map junk) else none

/-- The loop `for (ZonkIndex i = *ptr; i - *ptr < str_size; i++) str[i - *ptr] = mem[i];`
from the point where `i` has the given value; `buf` is the buffer behind `str`
and `size` the number of cells of the tape. -/
def copyLoop (size : Nat) : Nat → Nat → List Nat → State → Exec (List Nat × State)
  | 0, i, buf, st =>
    if usub i st.ptr < st.strSize then .noFuel else .done (buf, st)
  | fuel + 1, i, buf, st =>
    if usub i st.ptr < st.strSize then
      match st.load size i with
      | (none, st1) => .fault st1
      | (some c, st1) =>
        let (buf1, st2) := st1.store buf (usub i st1.ptr) c
        copyLoop size fuel (wrap (i + 1)) buf1 { st2 with copyIters := st2.copyIters + 1 }
    else .done (buf, st)

/-- The bytes `puts(s)` writes to standard output: the characters of `s` up to
its first zero byte, then a newline (C standard library). -/
def puts (s : List Nat) : List Nat :=
  s.takeWhile (fun c => decide (c ≠ 0)) ++ [10]

/-- Result of a call: the status byte returned, the final state, and the
buffer that was passed to `puts`, if `puts` was called (it is freed before
the return). -/
structure Result where
  status : Nat
  final : State
  putsArg : Option (List Nat)

/-- The function `bfputs(mem, size, ptr)` with `*ptr = ptr` on entry. -/
def bfputs (fuel : Nat) (allocOk : Bool) (junk : Nat → Nat)
    (mem : Nat → Nat) (size ptr : Nat) : Exec Result :=
  let st0 := State.init mem ptr
  match scanLoop size fuel st0.ptr st0 with
  | .noFuel => .noFuel
  | .fault st => .fault st
  | .done st1 =>
    match malloc allocOk junk st1.strSize with
    | none => .done { status := 1, final := st1, putsArg := none }
    | some buf0 =>
      match copyLoop size fuel st1.ptr buf0 st1 with
      | .noFuel => .noFuel
      | .fault st => .fault st
      | .done (buf1, st2) =>
        let (buf2, st3) := st2.store buf1 (usub st2.strSize 1) 0
        let st4 := { st3 with out := st3.out ++ puts buf2 }
        .done { status := 0, final := st4, putsArg := some buf2 }

/-- The state in which a call ended, by a return or at a load outside the
tape; `none` when the fuel ran out. -/
def Exec.state : Exec Result → Option State
  | .done r => some r.final
  | .fault st => some st
  | .noFuel => none

/-- What the caller observes of a call that ended: the status returned (`none`
when the call stopped at a load outside the tape) and the bytes written to
standard output. -/
def Exec.observed : Exec Result → Option (Option Nat × List Nat)
  | .done r => some (some r.status, r.final.out)
  | .fault st => some (none, st.out)
  | .noFuel => none

/-- The buffer a call passed to `puts`, if it reached the call of `puts`. -/
def Exec.putsArg : Exec Result → Option (List Nat)
  | .done r => r.putsArg
  | .fault _ => none
  | .noFuel => none

/-- Memory whose first cells are those of the list `tape` and whose other
cells hold `beyond`. -/
def ofTape (tape : List Nat) (beyond : Nat) : Nat → Nat :=
  fun i => tape.getD i beyond

/-! ## Specification-side notions -/

/-- The run of non-zero cells starting at `p`: the cells `p, p+1, ...` of the
tape up to, and excluding, the first zero cell or the end of the tape. -/
def tapeRun (mem : Nat → Nat) (size p : Nat) : List Nat :=
  ((List.range' p (size - p)).map mem).takeWhile (fun c => decide (c ≠ 0))

/-- Length of the run of non-zero cells starting at `p`. -/
def runLength (mem : Nat → Nat) (size p : Nat) : Nat :=
  (tapeRun mem size p).length

/-- Number of loads the scan loop performs from index `i`: one per cell of the
run, and one more for the zero cell that ends it, if there is one. -/
def scanLoads (mem : Nat → Nat) (size i : Nat) : Nat :=
  runLength mem size i + (if i + runLength mem size i < size then 1 else 0)

/-- Value of `str_size` when the scan loop ends. -/
def strSizeOf (mem : Nat → Nat) (size p : Nat) : Nat :=
  wrap (1 + runLength mem size p)

/-- Indices loaded by the first `s` iterations of a copy loop started at `p`. -/
def copyLoads (p s : Nat) : List Nat :=
  (List.range s).map (fun j => wrap (p + j))

/-- Contents of a buffer of `s` cells after the copy loop and the store of the
terminator at index `s - 1`. -/
def finalBuf (mem : Nat → Nat) (p s : Nat) : List Nat :=
  ((List.range s).map (fun j => mem (wrap (p + j)))).set (usub s 1) 0

/-- Stores outside the allocation made by a call with `str_size = s`: the
store of the terminator, when `s - 1` is not an index of the buffer. -/
def strayOf (s : Nat) : List Nat :=
  if usub s 1 < s then [] else [usub s 1]


/-! ## Arithmetic on `ZonkIndex` -/

theorem wrap_of_lt {n : Nat} (h : n < indexMod) : wrap n = n := by
  unfold wrap; exact Nat.mod_eq_of_lt h

theorem wrap_lt (n : Nat) : wrap n < indexMod := by
  unfold wrap indexMod; omega

theorem wrap_wrap_succ (s n : Nat) : wrap (wrap (s + 1) + n) = wrap (s + (1 + n)) := by
  unfold wrap indexMod; omega

theorem usub_wrap_add (p : Nat) {k : Nat} (hk : k < indexMod) :
    usub (wrap (p + k)) p = k := by
  unfold usub wrap indexMod at *; omega

theorem wrap_succ_wrap_add (p k : Nat) : wrap (wrap (p + k) + 1) = wrap (p + (k + 1)) := by
  unfold wrap indexMod; omega

/-! ## The run of non-zero cells -/

theorem tapeRun_of_le {mem : Nat → Nat} {size p : Nat} (h : size ≤ p) :
    tapeRun mem size p = [] := by
  simp [tapeRun, Nat.sub_eq_zero_of_le h]

theorem tapeRun_zero {mem : Nat → Nat} {size p : Nat} (h : mem p = 0) :
    tapeRun mem size p = [] := by
  unfold tapeRun
  cases hd : size - p with
  | zero => simp
  | succ d => simp [List.range'_succ, h]

theorem tapeRun_step {mem : Nat → Nat} {size p : Nat} (hp : p < size) (h : mem p ≠ 0) :
    tapeRun mem size p = mem p :: tapeRun mem size (p + 1) := by
  unfold tapeRun
  have hd : size - p = (size - (p + 1)) + 1 := by omega
  rw [hd, List.range'_succ]
  simp [h]

theorem runLength_of_le (mem : Nat → Nat) {size p : Nat} (h : size ≤ p) :
    runLength mem size p = 0 := by
  simp [runLength, tapeRun_of_le h]

theorem runLength_zero {mem : Nat → Nat} (size : Nat) {p : Nat} (h : mem p = 0) :
    runLength mem size p = 0 := by
  simp [runLength, tapeRun_zero h]

theorem runLength_step {mem : Nat → Nat} {size p : Nat} (hp : p < size) (h : mem p ≠ 0) :
    runLength mem size p = 1 + runLength mem size (p + 1) := by
  simp [runLength, tapeRun_step hp h, Nat.add_comm]

theorem runLength_le (mem : Nat → Nat) (size p : Nat) : runLength mem size p ≤ size - p := by
  unfold runLength tapeRun
  have h := (@List.takeWhile_sublist _ ((List.range' p (size - p)).map mem)
    (fun c => decide (c ≠ 0))).length_le
  simpa using h


/-! ## Facts about the run -/

theorem runLength_props (mem : Nat → Nat) (size : Nat) :
    ∀ (d p : Nat), size - p = d →
      (∀ k, k < runLength mem size p → mem (p + k) ≠ 0) ∧
      (p + runLength mem size p < size → mem (p + runLength mem size p) = 0) ∧
      tapeRun mem size p = (List.range (runLength mem size p)).map (fun k => mem (p + k)) := by
  intro d
  induction d with
  | zero =>
    intro p hd
    have hle : size ≤ p := by omega
    simp [runLength_of_le mem hle, tapeRun_of_le hle]
    omega
  | succ d ih =>
    intro p hd
    have hp : p < size := by omega
    by_cases hc : mem p = 0
    · simp [runLength_zero size hc, tapeRun_zero hc, hc]
    · obtain ⟨h1, h2, h3⟩ := ih (p + 1) (by omega)
      rw [runLength_step hp hc, tapeRun_step hp hc]
      refine ⟨?_, ?_, ?_⟩
      · intro k hk
        cases k with
        | zero => simpa using hc
        | succ k =>
          have := h1 k (by omega)
          rwa [show p + (k + 1) = p + 1 + k by omega]
      · intro hlt
        rw [show p + (1 + runLength mem size (p + 1)) = p + 1 + runLength mem size (p + 1) by omega]
          at hlt ⊢
        exact h2 hlt
      · rw [h3, Nat.add_comm 1, List.range_succ_eq_map]
        simp [Function.comp_def, Nat.add_assoc, Nat.add_comm 1]

theorem runLength_nonzero {mem : Nat → Nat} {size p k : Nat} (hk : k < runLength mem size p) :
    mem (p + k) ≠ 0 :=
  (runLength_props mem size _ p rfl).1 k hk

theorem runLength_stop {mem : Nat → Nat} {size p : Nat} (h : p + runLength mem size p < size) :
    mem (p + runLength mem size p) = 0 :=
  (runLength_props mem size _ p rfl).2.1 h

theorem tapeRun_eq_map (mem : Nat → Nat) (size p : Nat) :
    tapeRun mem size p = (List.range (runLength mem size p)).map (fun k => mem (p + k)) :=
  (runLength_props mem size _ p rfl).2.2

theorem runLength_unique {mem : Nat → Nat} {size : Nat} :
    ∀ (n p : Nat), (∀ k, k < n → mem (p + k) ≠ 0) → p + n ≤ size →
      (p + n < size → mem (p + n) = 0) → runLength mem size p = n := by
  intro n
  induction n with
  | zero =>
    intro p _ h2 h3
    by_cases hp : p < size
    · exact runLength_zero size (h3 hp)
    · exact runLength_of_le mem (by omega)
  | succ n ih =>
    intro p h1 h2 h3
    have hc : mem p ≠ 0 := by simpa using h1 0 (by omega)
    rw [runLength_step (by omega) hc, ih (p + 1)]
    · omega
    · intro k hk
      have := h1 (k + 1) (by omega)
      rwa [show p + (k + 1) = p + 1 + k by omega] at this
    · omega
    · intro hlt
      have := h3 (by omega)
      rwa [show p + (n + 1) = p + 1 + n by omega] at this

theorem runLength_congr {mem1 mem2 : Nat → Nat} {size p : Nat}
    (h : ∀ i, p ≤ i → i ≤ p + runLength mem1 size p → i < size → mem1 i = mem2 i) :
    runLength mem2 size p = runLength mem1 size p := by
  by_cases hp : p ≤ size
  · have hle := runLength_le mem1 size p
    apply runLength_unique
    · intro k hk
      rw [← h (p + k) (by omega) (by omega) (by omega)]
      exact runLength_nonzero hk
    · omega
    · intro hlt
      rw [← h _ (by omega) (Nat.le_refl _) hlt]
      exact runLength_stop hlt
  · rw [runLength_of_le mem2 (by omega), runLength_of_le mem1 (by omega)]

/-! ## The call when `str_size` does not wrap -/

theorem strSizeOf_eq {mem : Nat → Nat} {size p : Nat}
    (hn : runLength mem size p + 1 < indexMod) :
    strSizeOf mem size p = runLength mem size p + 1 := by
  unfold strSizeOf
  rw [wrap_of_lt (by omega)]; omega

theorem usub_succ_one {n : Nat} (hn : n + 1 < indexMod) : usub (n + 1) 1 = n := by
  unfold usub indexMod at *; omega

theorem run_index_lt {mem : Nat → Nat} {size p k : Nat} (hk : k < runLength mem size p) :
    p + k < size := by
  have := runLength_le mem size p
  omega

theorem finalBuf_eq {mem : Nat → Nat} {size p : Nat} (hsize : size < indexMod)
    (hn : runLength mem size p + 1 < indexMod) :
    finalBuf mem p (runLength mem size p + 1) = tapeRun mem size p ++ [0] := by
  unfold finalBuf
  rw [usub_succ_one hn, List.range_succ, List.map_append,
    List.set_append_right _ _ (by simp), tapeRun_eq_map]
  have hmap : (List.range (runLength mem size p)).map (fun j => mem (wrap (p + j)))
      = (List.range (runLength mem size p)).map (fun k => mem (p + k)) := by
    apply List.map_congr_left
    intro k hk
    have hk2 : k < runLength mem size p := List.mem_range.mp hk
    have := run_index_lt hk2
    rw [wrap_of_lt (by omega)]
  rw [hmap]
  simp

theorem puts_run (mem : Nat → Nat) (size p : Nat) :
    puts (tapeRun mem size p ++ [0]) = tapeRun mem size p ++ [10] := by
  unfold puts
  rw [List.takeWhile_append_of_pos]
  · simp
  · intro a ha
    rw [tapeRun_eq_map] at ha
    obtain ⟨k, hk, rfl⟩ := List.mem_map.mp ha
    simpa using runLength_nonzero (List.mem_range.mp hk)

theorem strayOf_succ {n : Nat} (hn : n + 1 < indexMod) : strayOf (n + 1) = [] := by
  simp [strayOf, usub_succ_one hn]

theorem copyLoads_eq {mem : Nat → Nat} {size p : Nat} (hsize : size < indexMod)
    (hp : p < size) :
    copyLoads p (runLength mem size p + 1) = List.range' p (runLength mem size p + 1) := by
  unfold copyLoads
  have hle := runLength_le mem size p
  rw [List.range'_eq_map_range]
  apply List.map_congr_left
  intro k hk
  have hk2 := List.mem_range.mp hk
  rw [wrap_of_lt (by omega)]

theorem getElem?_tapeRun {mem : Nat → Nat} {size p k : Nat} (hk : k < runLength mem size p) :
    (tapeRun mem size p)[k]? = some (mem (p + k)) := by
  rw [tapeRun_eq_map]
  simp [List.getElem?_map, List.getElem?_range hk]

theorem tapeRun_congr {mem1 mem2 : Nat → Nat} {size p : Nat}
    (h : ∀ i, p ≤ i → i ≤ p + runLength mem1 size p → i < size → mem1 i = mem2 i) :
    tapeRun mem2 size p = tapeRun mem1 size p := by
  rw [tapeRun_eq_map, tapeRun_eq_map, runLength_congr h]
  apply List.map_congr_left
  intro k hk
  have hk2 := List.mem_range.mp hk
  have := run_index_lt hk2
  exact (h (p + k) (by omega) (by omega) this).symm

theorem strSizeOf_wrapped {mem : Nat → Nat} {size p : Nat} (hsize : size < indexMod)
    (hn : ¬ runLength mem size p + 1 < indexMod) : strSizeOf mem size p = 0 := by
  have hle := runLength_le mem size p
  have : runLength mem size p + 1 = indexMod := by omega
  unfold strSizeOf wrap
  rw [Nat.add_comm, this, Nat.mod_self]

theorem puts_finalBuf {mem : Nat → Nat} {size p : Nat} (hsize : size < indexMod)
    (hn : runLength mem size p + 1 < indexMod) :
    puts (finalBuf mem p (strSizeOf mem size p)) = tapeRun mem size p ++ [10] := by
  rw [strSizeOf_eq hn, finalBuf_eq hsize hn, puts_run]

/-! ## The scan loop -/

theorem scanLoop_spec {size : Nat} (hsize : size < indexMod) :
    ∀ (fuel i : Nat) (st : State), size - i ≤ fuel → st.strSize < indexMod →
      scanLoop size fuel i st = .done
        { st with
          strSize := wrap (st.strSize + runLength st.mem size i)
          scanIters := st.scanIters + runLength st.mem size i
          reads := st.reads ++ List.range' i (scanLoads st.mem size i) } := by
  intro fuel
  induction fuel with
  | zero =>
    intro i st hf hs
    have hi : size ≤ i := by omega
    have hn := runLength_of_le st.mem hi
    simp [scanLoop, Nat.not_lt.mpr hi, scanLoads, hn, wrap_of_lt hs]
  | succ fuel ih =>
    intro i st hf hs
    by_cases hi : i < size
    · by_cases hc : st.mem i = 0
      · have hn := runLength_zero size hc
        simp [scanLoop, hi, State.load, hc, scanLoads, hn, wrap_of_lt hs]
      · have hn := runLength_step hi hc
        have hw : wrap (i + 1) = i + 1 := wrap_of_lt (by unfold indexMod at *; omega)
        have := ih (i + 1)
          { st with reads := st.reads ++ [i], strSize := wrap (st.strSize + 1),
                    scanIters := st.scanIters + 1 }
          (by omega) (wrap_lt _)
        simp only [scanLoop, hi, State.load, hc, hw, if_true, ne_eq, not_false_eq_true]
        rw [this]
        simp only [scanLoads, hn, wrap_wrap_succ]
        have e2 : ∀ m : Nat, List.range' i (1 + m) = i :: List.range' (i + 1) m := by
          intro m
          rw [Nat.add_comm 1 m, List.range'_succ]
        simp [e2, Nat.add_assoc]
    · have hi2 : size ≤ i := Nat.not_lt.mp hi
      have hn := runLength_of_le st.mem hi2
      simp [scanLoop, hi, scanLoads, hn, wrap_of_lt hs]

/-! ## The copy loop -/

theorem take_succ_set {buf : List Nat} {k : Nat} (c : Nat) (hk : k < buf.length) :
    (buf.set k c).take (k + 1) = buf.take k ++ [c] := by
  rw [List.take_succ, List.set_take,
    List.set_eq_of_length_le (by simp [List.length_take]), List.getElem?_set_self hk]
  rfl

/-- A copy loop all of whose remaining loads are inside the tape runs to its
end. -/
theorem copyLoop_done {size : Nat} :
    ∀ (fuel k : Nat) (buf : List Nat) (st : State), st.strSize < indexMod →
      k ≤ st.strSize → st.strSize - k ≤ fuel → buf.length = st.strSize →
      (∀ j, k ≤ j → j < st.strSize → wrap (st.ptr + j) < size) →
      copyLoop size fuel (wrap (st.ptr + k)) buf st = .done
        (buf.take k ++ (List.range' k (st.strSize - k)).map (fun j => st.mem (wrap (st.ptr + j))),
         { st with
           copyIters := st.copyIters + (st.strSize - k)
           reads := st.reads ++ (List.range' k (st.strSize - k)).map (fun j => wrap (st.ptr + j)) }) := by
  intro fuel
  induction fuel with
  | zero =>
    intro k buf st hs hk hf hlen _
    have hu : usub (wrap (st.ptr + k)) st.ptr = k := usub_wrap_add _ (by omega)
    have h0 : st.strSize - k = 0 := by omega
    have ht : buf.take k = buf := List.take_of_length_le (by omega)
    rw [copyLoop, hu, if_neg (by omega)]
    simp [h0, ht]
  | succ fuel ih =>
    intro k buf st hs hk hf hlen hin
    have hu : usub (wrap (st.ptr + k)) st.ptr = k := usub_wrap_add _ (by omega)
    by_cases hlt : k < st.strSize
    · have hload := hin k (Nat.le_refl k) hlt
      have := ih (k + 1) (buf.set k (st.mem (wrap (st.ptr + k))))
        { st with reads := st.reads ++ [wrap (st.ptr + k)], copyIters := st.copyIters + 1 }
        hs (by simpa using hlt) (by simp; omega) (by simpa using hlen)
        (fun j h1 h2 => hin j (by omega) h2)
      simp only [copyLoop, hu, hlt, hload, if_true, State.load, State.store, hlen,
        wrap_succ_wrap_add]
      rw [this]
      have hd : st.strSize - k = (st.strSize - (k + 1)) + 1 := by omega
      rw [take_succ_set _ (by omega)]
      simp only [hd, List.range'_succ]
      simp [Nat.add_assoc, Nat.add_comm 1]
    · have h0 : st.strSize - k = 0 := by omega
      have ht : buf.take k = buf := List.take_of_length_le (by omega)
      rw [copyLoop, hu, if_neg hlt]
      simp [h0, ht]

/-- A copy loop whose load in iteration `t` is the first outside the tape
stops at that load, after `t - k` further complete iterations. -/
theorem copyLoop_fault {size t : Nat} :
    ∀ (fuel k : Nat) (buf : List Nat) (st : State), st.strSize < indexMod →
      k ≤ t → t < st.strSize → t - k < fuel → buf.length = st.strSize →
      (∀ j, k ≤ j → j < t → wrap (st.ptr + j) < size) →
      size ≤ wrap (st.ptr + t) →
      copyLoop size fuel (wrap (st.ptr + k)) buf st = .fault
        { st with
          copyIters := st.copyIters + (t - k)
          reads := st.reads ++ (List.range' k (t - k + 1)).map (fun j => wrap (st.ptr + j)) } := by
  intro fuel
  induction fuel with
  | zero =>
    intro k buf st _ _ _ hf
    omega
  | succ fuel ih =>
    intro k buf st hs hk ht hf hlen hin hout
    have hu : usub (wrap (st.ptr + k)) st.ptr = k := usub_wrap_add _ (by omega)
    have hlt : k < st.strSize := by omega
    by_cases hkt : k = t
    · subst hkt
      have hload : ¬ wrap (st.ptr + k) < size := by omega
      simp [copyLoop, hu, hlt, hload, State.load]
    · have hload := hin k (Nat.le_refl k) (by omega)
      have := ih (k + 1) (buf.set k (st.mem (wrap (st.ptr + k))))
        { st with reads := st.reads ++ [wrap (st.ptr + k)], copyIters := st.copyIters + 1 }
        hs (by omega) (by simpa using ht) (by omega) (by simpa using hlen)
        (fun j h1 h2 => hin j (by omega) h2) hout
      simp only [copyLoop, hu, hlt, hload, if_true, State.load, State.store, hlen,
        wrap_succ_wrap_add]
      rw [this]
      have hd : t - k + 1 = (t - (k + 1) + 1) + 1 := by omega
      simp only [hd, List.range'_succ]
      have hc : 1 + (t - (k + 1)) = t - k := by omega
      simp [Nat.add_assoc, hc]

/-! ## The whole function -/

theorem wrap_le (n : Nat) : wrap n ≤ n := Nat.mod_le _ _

theorem strSizeOf_le (mem : Nat → Nat) (size p : Nat) : strSizeOf mem size p ≤ size + 1 := by
  have h1 := runLength_le mem size p
  have h2 := wrap_le (1 + runLength mem size p)
  unfold strSizeOf; omega

/-- The call when `malloc` fails. -/
theorem bfputs_fail {size fuel : Nat} (junk mem : Nat → Nat) (p : Nat)
    (hsize : size < indexMod) (hfuel : size < fuel) :
    bfputs fuel false junk mem size p = .done
      { status := 1
        final :=
          { mem := mem, ptr := p, strSize := strSizeOf mem size p, out := []
            reads := List.range' p (scanLoads mem size p), stray := []
            scanIters := runLength mem size p, copyIters := 0 }
        putsArg := none } := by
  have h := scanLoop_spec hsize fuel p (State.init mem p) (by omega)
    (by simp [State.init, indexMod])
  simp only [bfputs, State.init] at h ⊢
  rw [h]
  simp [malloc, strSizeOf]

/-- The call when `malloc` succeeds and every load of the copy loop is inside
the tape. -/
theorem bfputs_ok {size fuel p : Nat} (junk mem : Nat → Nat)
    (hsize : size < indexMod) (hp : p < indexMod) (hfuel : size < fuel)
    (hin : ∀ j, j < strSizeOf mem size p → wrap (p + j) < size) :
    bfputs fuel true junk mem size p = .done
      { status := 0
        final :=
          { mem := mem, ptr := p, strSize := strSizeOf mem size p
            out := puts (finalBuf mem p (strSizeOf mem size p))
            reads := List.range' p (scanLoads mem size p) ++ copyLoads p (strSizeOf mem size p)
            stray := strayOf (strSizeOf mem size p)
            scanIters := runLength mem size p, copyIters := strSizeOf mem size p }
        putsArg := some (finalBuf mem p (strSizeOf mem size p)) } := by
  have h := scanLoop_spec hsize fuel p (State.init mem p) (by omega)
    (by simp [State.init, indexMod])
  have hle := strSizeOf_le mem size p
  have hc := @copyLoop_done size fuel 0 ((List.range (strSizeOf mem size p)).map junk)
    { mem := mem, ptr := p, strSize := strSizeOf mem size p, out := []
      reads := List.range' p (scanLoads mem size p), stray := []
      scanIters := runLength mem size p, copyIters := 0 }
    (wrap_lt _) (Nat.zero_le _) (by simp only; omega) (by simp) (fun j _ h2 => hin j h2)
  simp only [Nat.add_zero, List.take_zero, List.nil_append, Nat.sub_zero, Nat.zero_add,
    ← List.range_eq_range', wrap_of_lt hp] at hc
  simp only [bfputs, State.init] at h ⊢
  rw [h]
  simp only [malloc, if_true, List.nil_append, Nat.zero_add]
  simp only [strSizeOf] at hc ⊢
  rw [hc]
  by_cases ht : usub (wrap (1 + runLength mem size p)) 1 < wrap (1 + runLength mem size p)
  · simp [finalBuf, copyLoads, strayOf, State.store, ht]
  · have hset : ((List.range (wrap (1 + runLength mem size p))).map
          (fun j => mem (wrap (p + j)))).set (usub (wrap (1 + runLength mem size p)) 1) 0
        = (List.range (wrap (1 + runLength mem size p))).map (fun j => mem (wrap (p + j))) :=
      List.set_eq_of_length_le (by simpa using ht)
    simp [finalBuf, copyLoads, strayOf, State.store, ht, hset]

/-- The last load of the copy loop, at `p + n` for a run of `n` cells, is
outside the tape when the run is not ended by a zero cell of the tape. -/
theorem wrap_run_end {mem : Nat → Nat} {size p : Nat} (hsize : size < indexMod)
    (hp : p < indexMod) (hend : size ≤ p + runLength mem size p) :
    size ≤ wrap (p + runLength mem size p) := by
  have hle := runLength_le mem size p
  by_cases hps : p < size
  · rw [wrap_of_lt (by omega)]; exact hend
  · rw [runLength_of_le mem (by omega), Nat.add_zero, wrap_of_lt hp]; omega

/-- The call when `malloc` succeeds and the run is not ended by a zero cell of
the tape: it stops at the last load of the copy loop. -/
theorem bfputs_fault {size fuel p : Nat} (junk mem : Nat → Nat)
    (hsize : size < indexMod) (hp : p < indexMod) (hfuel : size < fuel)
    (hn : runLength mem size p + 1 < indexMod)
    (hend : size ≤ p + runLength mem size p) :
    bfputs fuel true junk mem size p = .fault
      { mem := mem, ptr := p, strSize := runLength mem size p + 1, out := []
        reads := List.range' p (scanLoads mem size p)
          ++ copyLoads p (runLength mem size p + 1)
        stray := []
        scanIters := runLength mem size p, copyIters := runLength mem size p } := by
  have h := scanLoop_spec hsize fuel p (State.init mem p) (by omega)
    (by simp [State.init, indexMod])
  have hle := runLength_le mem size p
  have hs := strSizeOf_eq hn
  have hc := @copyLoop_fault size (runLength mem size p) fuel 0
    ((List.range (runLength mem size p + 1)).map junk)
    { mem := mem, ptr := p, strSize := runLength mem size p + 1, out := []
      reads := List.range' p (scanLoads mem size p), stray := []
      scanIters := runLength mem size p, copyIters := 0 }
    hn (Nat.zero_le _) (Nat.lt_succ_self _) (by omega) (by simp)
    (fun j _ h2 => by
      have := run_index_lt h2
      show wrap (p + j) < size
      rw [wrap_of_lt (by omega)]; exact this)
    (wrap_run_end hsize hp hend)
  simp only [Nat.add_zero, Nat.sub_zero, Nat.zero_add, ← List.range_eq_range',
    wrap_of_lt hp] at hc
  simp only [bfputs, State.init] at h ⊢
  rw [h]
  simp only [malloc, if_true, List.nil_append, Nat.zero_add]
  rw [← strSizeOf, hs, hc]
  simp [copyLoads]

/-- When the run is ended by a zero cell of the tape, every load of the copy
loop is inside the tape. -/
theorem loads_in_tape_of_stop {mem : Nat → Nat} {size p : Nat} (hsize : size < indexMod)
    (hstop : p + runLength mem size p < size) :
    ∀ j, j < strSizeOf mem size p → wrap (p + j) < size := by
  intro j hj
  rw [strSizeOf_eq (by omega)] at hj
  rw [wrap_of_lt (by omega)]
  omega

/-- When `str_size` has wrapped to 0 the copy loop makes no load. -/
theorem loads_in_tape_of_wrapped {mem : Nat → Nat} {size p : Nat} (hsize : size < indexMod)
    (hn : ¬ runLength mem size p + 1 < indexMod) :
    ∀ j, j < strSizeOf mem size p → wrap (p + j) < size := by
  intro j hj
  rw [strSizeOf_wrapped hsize hn] at hj
  omega

/-- Every call ends, by a return or at a load outside the tape; the tape, the
pointer, `str_size` and the iteration counts in the state it ends in. -/
theorem bfputs_ends {size fuel p : Nat} (allocOk : Bool) (junk mem : Nat → Nat)
    (hsize : size < indexMod) (hp : p < indexMod) (hfuel : size < fuel) :
    ∃ st, (bfputs fuel allocOk junk mem size p).state = some st ∧
      st.mem = mem ∧ st.ptr = p ∧
      st.strSize = strSizeOf mem size p ∧
      st.scanIters = runLength mem size p ∧
      st.copyIters ≤ st.strSize ∧
      (runLength mem size p + 1 < indexMod → st.stray = []) := by
  cases allocOk with
  | false =>
    rw [bfputs_fail junk mem p hsize hfuel]
    exact ⟨_, rfl, rfl, rfl, rfl, rfl, Nat.zero_le _, fun _ => rfl⟩
  | true =>
    by_cases hn : runLength mem size p + 1 < indexMod
    · by_cases hstop : p + runLength mem size p < size
      · rw [bfputs_ok junk mem hsize hp hfuel (loads_in_tape_of_stop hsize hstop)]
        refine ⟨_, rfl, rfl, rfl, rfl, rfl, Nat.le_refl _, fun _ => ?_⟩
        show strayOf (strSizeOf mem size p) = []
        rw [strSizeOf_eq hn, strayOf_succ hn]
      · rw [bfputs_fault junk mem hsize hp hfuel hn (by omega)]
        exact ⟨_, rfl, rfl, rfl, (strSizeOf_eq hn).symm, rfl, Nat.le_succ _, fun _ => rfl⟩
    · rw [bfputs_ok junk mem hsize hp hfuel (loads_in_tape_of_wrapped hsize hn)]
      exact ⟨_, rfl, rfl, rfl, rfl, rfl, Nat.le_refl _, fun h => absurd h hn⟩

/-- The buffer of a call whose run is ended by a zero cell of the tape: for a
run of `n` cells from `p`, a call whose allocation succeeds passes to `puts` a
buffer of `n + 1` cells, the first `n` being `mem[p], ..., mem[p+n-1]` in order
and the last `0`. -/
theorem bfputs_buffer {size fuel p : Nat} (junk mem : Nat → Nat)
    (hsize : size < indexMod) (hfuel : size < fuel)
    (hstop : p + runLength mem size p < size) :
    ∃ r buf, bfputs fuel true junk mem size p = .done r ∧ r.putsArg = some buf ∧
      buf.length = runLength mem size p + 1 ∧
      (∀ k, k < runLength mem size p → buf[k]? = some (mem (p + k))) ∧
      buf[runLength mem size p]? = some 0 ∧
      (∀ k, k < runLength mem size p → mem (p + k) ≠ 0) ∧
      mem (p + runLength mem size p) = 0 := by
  have hn : runLength mem size p + 1 < indexMod := by omega
  have hb : finalBuf mem p (strSizeOf mem size p) = tapeRun mem size p ++ [0] := by
    rw [strSizeOf_eq hn, finalBuf_eq hsize hn]
  have hl : (tapeRun mem size p).length = runLength mem size p := rfl
  refine ⟨_, _, bfputs_ok junk mem hsize (by omega) hfuel (loads_in_tape_of_stop hsize hstop),
    rfl, ?_, ?_, ?_, ?_, runLength_stop hstop⟩
  · rw [hb]; simp [hl]
  · intro k hk
    rw [hb, List.getElem?_append_left (by rw [hl]; exact hk)]
    exact getElem?_tapeRun hk
  · rw [hb, List.getElem?_append_right (by rw [hl])]
    simp [hl]
  · intro k hk
    exact runLength_nonzero hk

/-- C1, the code at the failing input: on the one-cell tape `65` with the
pointer at cell 0 the run has one cell, reaching the end of the tape; the call
with a successful allocation stops at the load of `mem[1]` in the copy loop,
so no buffer is passed to `puts`, no status is returned and nothing is
written. -/
theorem bfputs_buffer_tape_end :
    runLength (ofTape [65] 0) 1 0 = 1 ∧
    (bfputs 2 true (fun _ => 0) (ofTape [65] 0) 1 0).putsArg = none ∧
    (bfputs 2 true (fun _ => 0) (ofTape [65] 0) 1 0).observed = some (none, []) := by
  decide

/-! ## Standard output -/

/-- C2, as amended: for a tape of `size` cells and a pointer `p < size` whose
run of non-zero cells from `p` is ended by a zero cell of the tape, a call
whose allocation succeeds returns having written to standard output the cells
of the run, in tape order, followed by one newline byte (10), and nothing
else. -/
theorem bfputs_output {size fuel p : Nat} (junk mem : Nat → Nat)
    (hsize : size < indexMod) (hfuel : size < fuel)
    (hstop : p + runLength mem size p < size) :
    ∃ r, bfputs fuel true junk mem size p = .done r ∧
      r.final.out = tapeRun mem size p ++ [10] ∧
      tapeRun mem size p = (List.range (runLength mem size p)).map (fun k => mem (p + k)) := by
  refine ⟨_, bfputs_ok junk mem hsize (by omega) hfuel (loads_in_tape_of_stop hsize hstop),
    ?_, tapeRun_eq_map mem size p⟩
  exact puts_finalBuf hsize (by omega)

/-- Instance of the preceding theorem: the tape `72 105 0 3`, pointer 0. -/
theorem bfputs_output_witness :
    (4 < indexMod ∧ 4 < 5 ∧ 0 + runLength (ofTape [72, 105, 0, 3] 9) 4 0 < 4) ∧
    ∃ r, bfputs 5 true (fun _ => 7) (ofTape [72, 105, 0, 3] 9) 4 0 = .done r ∧
      r.final.out = tapeRun (ofTape [72, 105, 0, 3] 9) 4 0 ++ [10] ∧
      tapeRun (ofTape [72, 105, 0, 3] 9) 4 0
        = (List.range (runLength (ofTape [72, 105, 0, 3] 9) 4 0)).map
            (fun k => ofTape [72, 105, 0, 3] 9 (0 + k)) :=
  ⟨by decide, bfputs_output (fun _ => 7) (ofTape [72, 105, 0, 3] 9)
    (by decide) (by decide) (by decide)⟩

/-- C2 fails as stated.  On the tape `72 105 0` read from cell 0 the run is
`72 105` and the call returns 0 having written `72 105 10`: `puts` appends a
newline.  On the one-cell tape `65` the run `65` reaches the end of the tape
and the call stops in the copy loop with nothing written. -/
theorem bfputs_output_newline :
    (tapeRun (ofTape [72, 105, 0] 0) 3 0 = [72, 105] ∧
      (bfputs 4 true (fun _ => 0) (ofTape [72, 105, 0] 0) 3 0).observed
        = some (some 0, [72, 105, 10])) ∧
    (tapeRun (ofTape [65] 0) 1 0 = [65] ∧
      (bfputs 2 true (fun _ => 0) (ofTape [65] 0) 1 0).observed = some (none, [])) := by
  decide

/-! ## The status byte -/

/-- C4: `ZonkTokenType` has exactly fifteen kinds, which are, in declaration
order, the fifteen kinds the specification lists; their integer values are
0, 1, ..., 14 in that order, hence pairwise distinct; and a `ZonkToken` is
exactly a pair of a kind and a literal text. -/
theorem zonkTokenType_kinds :
    enumerators.length = 15 ∧
    enumerators.Nodup ∧
    (∀ k : ZonkTokenType, k ∈ enumerators) ∧
    enumerators.map ZonkTokenType.describe = specKinds ∧
    enumerators.map ZonkTokenType.encode = List.range 15 ∧
    Function.Injective ZonkTokenType.encode ∧
    (∀ k : ZonkTokenType, k.encode < 15) ∧
    Function.Bijective (fun t : ZonkToken => (t.kind, t.lit)) := by
  refine ⟨by decide, by decide, ?_, by decide, by decide, ?_, ?_, ?_, ?_⟩
  · intro k; cases k <;> decide
  · intro a b h
    cases a <;> cases b <;> first | rfl | exact absurd h (by decide)
  · intro k; cases k <;> decide
  · rintro ⟨k1, l1⟩ ⟨k2, l2⟩ h
    simp only [Prod.mk.injEq] at h
    obtain ⟨rfl, rfl⟩ := h
    rfl
  · rintro ⟨k, l⟩
    exact ⟨⟨k, l⟩, rfl⟩

/-! ## Loads from the tape -/

/-- Loads of a call whose run is ended by a zero cell of the tape: the call
returns and all its loads are at indices below `size`. -/
theorem bfputs_loads_in_tape {size fuel p : Nat} (junk mem : Nat → Nat)
    (hsize : size < indexMod) (hfuel : size < fuel)
    (hstop : p + runLength mem size p < size) :
    ∃ r, bfputs fuel true junk mem size p = .done r ∧ ∀ i ∈ r.final.reads, i < size := by
  have hn : runLength mem size p + 1 < indexMod := by omega
  refine ⟨_, bfputs_ok junk mem hsize (by omega) hfuel (loads_in_tape_of_stop hsize hstop), ?_⟩
  intro i hi
  simp only [strSizeOf_eq hn, copyLoads_eq hsize (show p < size by omega), scanLoads, hstop,
    if_true, List.mem_append, List.mem_range'_1, or_self] at hi
  omega

/-- Loads of a call whose run reaches the last cell of the tape: the copy
loop loads `mem[size]`, and the call stops there. -/
theorem bfputs_loads_past_tape {size fuel p : Nat} (junk mem : Nat → Nat)
    (hsize : size < indexMod) (hp : p < size) (hfuel : size < fuel)
    (hend : p + runLength mem size p = size) (hn : runLength mem size p + 1 < indexMod) :
    ∃ st, bfputs fuel true junk mem size p = .fault st ∧ size ∈ st.reads ∧ st.out = [] := by
  refine ⟨_, bfputs_fault junk mem hsize (by omega) hfuel hn (by omega), ?_, rfl⟩
  simp only [copyLoads_eq hsize hp, List.mem_append, List.mem_range'_1]
  right; omega

/-- C5, the code at the failing input: on the one-cell tape `65` with the
pointer at cell 0 the loads are at indices 0 (scan loop), 0 and 1 (copy loop);
index 1 is not below the size 1. -/
theorem bfputs_loads_one_cell :
    (bfputs 2 true (fun _ => 0) (ofTape [65] 0) 1 0).state.map (fun st => st.reads)
      = some [0, 0, 1] ∧
    (bfputs 2 true (fun _ => 0) (ofTape [65] 0) 1 0).state.map
      (fun st => decide (∀ i ∈ st.reads, i < 1)) = some false := by
  decide

/-! ## Frame -/

/-- C6: for every tape, size and pointer (values of `ZonkIndex`), and whether
or not the allocation succeeds, the call ends, by a return or at a load outside
the tape, with every tape cell and the pointer as they were on entry; a pointer
below the tape length stays below it.  When `str_size` has not wrapped, no
store falls outside the buffer either. -/
theorem bfputs_frame {size fuel p : Nat} (allocOk : Bool) (junk mem : Nat → Nat)
    (hsize : size < indexMod) (hp : p < indexMod) (hfuel : size < fuel) :
    ∃ st, (bfputs fuel allocOk junk mem size p).state = some st ∧
      (∀ r, bfputs fuel allocOk junk mem size p = .done r → r.final = st) ∧
      (∀ i, st.mem i = mem i) ∧ st.ptr = p ∧
      (p < size → st.ptr < size) ∧
      (runLength mem size p + 1 < indexMod → st.stray = []) := by
  obtain ⟨st, hst, hm, hptr, _, _, _, hstray⟩ := bfputs_ends allocOk junk mem hsize hp hfuel
  refine ⟨st, hst, ?_, fun i => by rw [hm], hptr, fun h => by rw [hptr]; exact h, hstray⟩
  intro r hr
  rw [hr] at hst
  exact Option.some.inj hst

/-- Instance of the preceding theorem: the tape `72 105 0 3`, pointer 1. -/
theorem bfputs_frame_witness :
    (4 < indexMod ∧ 1 < indexMod ∧ 4 < 5) ∧
    ∃ st, (bfputs 5 true (fun _ => 7) (ofTape [72, 105, 0, 3] 9) 4 1).state = some st ∧
      (∀ r, bfputs 5 true (fun _ => 7) (ofTape [72, 105, 0, 3] 9) 4 1 = .done r →
        r.final = st) ∧
      (∀ i, st.mem i = ofTape [72, 105, 0, 3] 9 i) ∧ st.ptr = 1 ∧
      (1 < 4 → st.ptr < 4) ∧
      (runLength (ofTape [72, 105, 0, 3] 9) 4 1 + 1 < indexMod → st.stray = []) :=
  ⟨by decide, bfputs_frame true (fun _ => 7) (ofTape [72, 105, 0, 3] 9)
    (by decide) (by decide) (by decide)⟩

/-! ## Failed allocation -/

/-- C7: for every tape, size and pointer, a call whose allocation fails returns
status 1 from the state in which the scan loop ended: nothing has been written
to standard output, the copy loop has not run and no tape cell has been loaded
after the scan loop (whose loads are all below `size`), no store has been made,
and the tape and the pointer are as on entry. -/
theorem bfputs_alloc_failure {size fuel : Nat} (junk mem : Nat → Nat) (p : Nat)
    (hsize : size < indexMod) (hfuel : size < fuel) :
    ∃ st1, scanLoop size fuel p (State.init mem p) = .done st1 ∧
      bfputs fuel false junk mem size p
        = .done { status := 1, final := st1, putsArg := none } ∧
      st1.out = [] ∧ st1.copyIters = 0 ∧ st1.stray = [] ∧
      (∀ i ∈ st1.reads, i < size) ∧
      (∀ i, st1.mem i = mem i) ∧ st1.ptr = p := by
  have h := scanLoop_spec hsize fuel p (State.init mem p) (by omega)
    (by simp [State.init, indexMod])
  refine ⟨_, h, ?_, rfl, rfl, rfl, ?_, fun _ => rfl, rfl⟩
  · rw [bfputs_fail junk mem p hsize hfuel]
    simp [State.init, strSizeOf]
  · intro i hi
    have hle := runLength_le mem size p
    simp only [State.init, List.nil_append, List.mem_range'_1, scanLoads] at hi
    split at hi <;> omega

/-- Instance of the preceding theorem: the tape `72 105 0`, pointer 0. -/
theorem bfputs_alloc_failure_witness :
    (3 < indexMod ∧ 3 < 4) ∧
    ∃ st1, scanLoop 3 4 0 (State.init (ofTape [72, 105, 0] 9) 0) = .done st1 ∧
      bfputs 4 false (fun _ => 7) (ofTape [72, 105, 0] 9) 3 0
        = .done { status := 1, final := st1, putsArg := none } ∧
      st1.out = [] ∧ st1.copyIters = 0 ∧ st1.stray = [] ∧
      (∀ i ∈ st1.reads, i < 3) ∧
      (∀ i, st1.mem i = ofTape [72, 105, 0] 9 i) ∧ st1.ptr = 0 :=
  ⟨by decide, bfputs_alloc_failure (fun _ => 7) (ofTape [72, 105, 0] 9) 0
    (by decide) (by decide)⟩

/-! ## The allocation size -/

/-- C8: for every tape a call can receive (one of `size` cells that shares the
address space of `2 ^ 64` bytes with the `ZonkIndex` object behind `ptr`) and
every pointer `p < size`, the scan loop ends with `str_size` equal to the run
length plus one, reached without wraparound (it is one plus the number of
increments made); this value, the one passed to `malloc`, is at least 1, the
terminator index `str_size - 1` is the run length, and the call ends with
`str_size` unchanged and no store outside the buffer. -/
theorem bfputs_alloc_size {size fuel p : Nat} (allocOk : Bool) (junk mem : Nat → Nat)
    (hsize : size + indexBytes ≤ indexMod) (hp : p < size) (hfuel : size < fuel) :
    ∃ st1, scanLoop size fuel p (State.init mem p) = .done st1 ∧
      st1.strSize = runLength mem size p + 1 ∧
      st1.strSize = 1 + st1.scanIters ∧
      1 + st1.scanIters < indexMod ∧
      1 ≤ st1.strSize ∧
      usub st1.strSize 1 = runLength mem size p ∧
      ∃ st, (bfputs fuel allocOk junk mem size p).state = some st ∧
        st.strSize = st1.strSize ∧ st.stray = [] := by
  have hle := runLength_le mem size p
  have hs : size < indexMod := by unfold indexBytes at hsize; omega
  have hn : runLength mem size p + 1 < indexMod := by unfold indexBytes at hsize; omega
  have h := scanLoop_spec hs fuel p (State.init mem p) (by omega)
    (by simp [State.init, indexMod])
  obtain ⟨st, hst, _, _, hstr, _, _, hstray⟩ :=
    bfputs_ends allocOk junk mem hs (show p < indexMod by omega) hfuel
  have hw : wrap (1 + runLength mem size p) = runLength mem size p + 1 := by
    rw [wrap_of_lt (by omega)]; omega
  refine ⟨_, h, ?_, ?_, ?_, ?_, ?_, st, hst, ?_, hstray hn⟩
  · simpa [State.init] using hw
  · simp only [State.init, hw]; omega
  · simp only [State.init]; omega
  · simp only [State.init, hw]; omega
  · simp only [State.init, hw]; exact usub_succ_one hn
  · rw [hstr]; simp [State.init, strSizeOf]

/-- Instance of the preceding theorem: the tape `72 105 0 3`, pointer 0. -/
theorem bfputs_alloc_size_witness :
    (4 + indexBytes ≤ indexMod ∧ 0 < 4 ∧ 4 < 5) ∧
    ∃ st1, scanLoop 4 5 0 (State.init (ofTape [72, 105, 0, 3] 9) 0) = .done st1 ∧
      st1.strSize = runLength (ofTape [72, 105, 0, 3] 9) 4 0 + 1 ∧
      st1.strSize = 1 + st1.scanIters ∧
      1 + st1.scanIters < indexMod ∧
      1 ≤ st1.strSize ∧
      usub st1.strSize 1 = runLength (ofTape [72, 105, 0, 3] 9) 4 0 ∧
      ∃ st, (bfputs 5 true (fun _ => 7) (ofTape [72, 105, 0, 3] 9) 4 0).state = some st ∧
        st.strSize = st1.strSize ∧ st.stray = [] :=
  ⟨by decide, bfputs_alloc_size true (fun _ => 7) (ofTape [72, 105, 0, 3] 9)
    (by decide) (by decide) (by decide)⟩

/-! ## Termination -/

/-- C10: two tapes of the same size that agree on every cell from `p` up to
and including the first zero cell at or after `p` (on every cell from `p` on,
if there is none) give, for the same pointer and the same allocation outcome,
calls that end alike: the same status, or none for both, and the same bytes on
standard output.  When the allocation fails or the zero cell exists, both
calls return, with the same output and the same status. -/
theorem bfputs_depends_on_run {size fuel p : Nat} (allocOk : Bool)
    (junk1 junk2 mem1 mem2 : Nat → Nat)
    (hsize : size < indexMod) (hp : p < indexMod) (hfuel : size < fuel)
    (hagree : ∀ i, p ≤ i → i ≤ p + runLength mem1 size p → i < size → mem1 i = mem2 i) :
    (∃ o, (bfputs fuel allocOk junk1 mem1 size p).observed = some o ∧
      (bfputs fuel allocOk junk2 mem2 size p).observed = some o) ∧
    (allocOk = false ∨ p + runLength mem1 size p < size →
      ∃ r1 r2, bfputs fuel allocOk junk1 mem1 size p = .done r1 ∧
        bfputs fuel allocOk junk2 mem2 size p = .done r2 ∧
        r1.final.out = r2.final.out ∧ r1.status = r2.status) := by
  have hrl := runLength_congr hagree
  cases allocOk with
  | false =>
    rw [bfputs_fail junk1 mem1 p hsize hfuel, bfputs_fail junk2 mem2 p hsize hfuel]
    exact ⟨⟨_, rfl, rfl⟩, fun _ => ⟨_, _, rfl, rfl, rfl, rfl⟩⟩
  | true =>
    by_cases hn : runLength mem1 size p + 1 < indexMod
    · by_cases hstop : p + runLength mem1 size p < size
      · have hb : puts (finalBuf mem1 p (strSizeOf mem1 size p))
            = puts (finalBuf mem2 p (strSizeOf mem2 size p)) := by
          rw [puts_finalBuf hsize hn, puts_finalBuf hsize (by rw [hrl]; exact hn),
            tapeRun_congr hagree]
        rw [bfputs_ok junk1 mem1 hsize hp hfuel (loads_in_tape_of_stop hsize hstop),
          bfputs_ok junk2 mem2 hsize hp hfuel
            (loads_in_tape_of_stop hsize (by rw [hrl]; exact hstop))]
        refine ⟨⟨_, rfl, ?_⟩, fun _ => ⟨_, _, rfl, rfl, hb, rfl⟩⟩
        simp only [Exec.observed, hb]
      · have hcontra : ¬ (true = false ∨ p + runLength mem1 size p < size) := by simp [hstop]
        rw [bfputs_fault junk1 mem1 hsize hp hfuel hn (by omega),
          bfputs_fault junk2 mem2 hsize hp hfuel (by rw [hrl]; exact hn)
            (by rw [hrl]; omega)]
        exact ⟨⟨_, rfl, rfl⟩, fun h => absurd h hcontra⟩
    · have hb : puts (finalBuf mem1 p (strSizeOf mem1 size p))
          = puts (finalBuf mem2 p (strSizeOf mem2 size p)) := by
        rw [strSizeOf_wrapped hsize hn, strSizeOf_wrapped hsize (by rw [hrl]; exact hn)]
        rfl
      rw [bfputs_ok junk1 mem1 hsize hp hfuel (loads_in_tape_of_wrapped hsize hn),
        bfputs_ok junk2 mem2 hsize hp hfuel
          (loads_in_tape_of_wrapped hsize (by rw [hrl]; exact hn))]
      refine ⟨⟨_, rfl, ?_⟩, fun _ => ⟨_, _, rfl, rfl, hb, rfl⟩⟩
      simp only [Exec.observed, hb]

/-- Instance of the preceding theorem: the tapes `1 72 105 0 3` and
`2 72 105 0 4`, pointer 1. -/
theorem bfputs_depends_on_run_witness :
    (5 < indexMod ∧ 1 < indexMod ∧ 5 < 6) ∧
    (∃ o, (bfputs 6 true (fun _ => 7) (ofTape [1, 72, 105, 0, 3] 9) 5 1).observed = some o ∧
      (bfputs 6 true (fun _ => 8) (ofTape [2, 72, 105, 0, 4] 6) 5 1).observed = some o) ∧
    (true = false ∨ 1 + runLength (ofTape [1, 72, 105, 0, 3] 9) 5 1 < 5 →
      ∃ r1 r2, bfputs 6 true (fun _ => 7) (ofTape [1, 72, 105, 0, 3] 9) 5 1 = .done r1 ∧
        bfputs 6 true (fun _ => 8) (ofTape [2, 72, 105, 0, 4] 6) 5 1 = .done r2 ∧
        r1.final.out = r2.final.out ∧ r1.status = r2.status) :=
  ⟨by decide, bfputs_depends_on_run true (fun _ => 7) (fun _ => 8)
    (ofTape [1, 72, 105, 0, 3] 9) (ofTape [2, 72, 105, 0, 4] 6)
    (by decide) (by decide) (by decide) (by
      intro i h1 h2 h3
      have h4 : runLength (ofTape [1, 72, 105, 0, 3] 9) 5 1 = 2 := by decide
      rw [h4] at h2
      have : i = 1 ∨ i = 2 ∨ i = 3 := by omega
      rcases this with rfl | rfl | rfl <;> rfl)⟩

end Zonk
